import Mathlib

set_option maxHeartbeats 1000000

/-
Verification of the layered configuration store (config-rust).

The embedding follows the two source files under src/: `src/config.rs` (the
layered store `Config`, its mutators and `refresh`) and `src/value.rs` (the
recursive `Value` union, its coercions and `as_string`).  The path-expression
engine (`path.rs`), the source trait (`source.rs`) and the error enum
(`error.rs`) are part of this crate but are not under src/; the definitions
for them below are modelled from the spec and are marked as such.

Modelling conventions:
  - Rust `HashMap` is represented by an association list with insert-replaces
    semantics (`mapInsert` / `tInsert`); the list order stands for the map's
    iteration order, which Rust leaves unspecified but keeps stable for an
    unmodified map.
  - Rust `f64` is represented by `Rat`; the claims under proof only use
    comparison with zero and rounding, on which the rational model agrees
    with IEEE semantics at every representable (non-NaN) input.
  - Rust `i64`/`usize` are represented by `Int`/`Nat`; `into_int`'s saturating
    float cast models the Rust `as i64` saturation through `i64clamp`.
  - Rust `String::to_lowercase` is modelled by ASCII lowering (`toLowerStr`);
    the case-insensitivity claim only concerns ASCII letter case.
-/

deriving instance DecidableEq for Except

namespace ConfigRust

/-! ## Decimal rendering of numbers (model of Rust's Display for u64/i64) -/

/-- Decimal digit character for a value below ten. -/
def digitChar : Nat → Char
  | 0 => '0' | 1 => '1' | 2 => '2' | 3 => '3' | 4 => '4'
  | 5 => '5' | 6 => '6' | 7 => '7' | 8 => '8' | _ => '9'

/-- Accumulator form of the decimal printer.  The first argument is fuel; a
fuel of at least the number being printed is always sufficient because the
number is divided by ten before each recursive call. -/
def toDecimalAux : Nat → Nat → List Char → List Char
  | 0, n, acc => digitChar n :: acc
  | fuel+1, n, acc =>
      if n < 10 then digitChar n :: acc
      else toDecimalAux fuel (n / 10) (digitChar (n % 10) :: acc)

/-- Decimal digit string of a natural number, most significant digit first. -/
def toDecimal (n : Nat) : List Char := toDecimalAux n n []

/-- Decimal rendering of a natural number as a string. -/
def natStr (n : Nat) : String := String.mk (toDecimal n)

/-- Decimal rendering of an integer, with a leading minus sign when negative
(the Rust `Display` form of `i64`). -/
def intStr (i : Int) : String :=
  if i < 0 then "-" ++ natStr i.natAbs else natStr i.natAbs

/-- Rendering of the float payload.  The Rust code prints an `f64` with
`Display` (shortest round-tripping decimal); under the rational model we
render the reduced fraction instead.  No claim under proof depends on the
text this produces, only on it being a function of the payload. -/
def ratStr (q : Rat) : String :=
  intStr q.num ++ (if q.den = 1 then "" else "/" ++ natStr q.den)

/-! ## Byte-order string comparison (model of Rust's `Ord` for `String`) -/

/-- Lexicographic comparison of character lists by scalar value; UTF-8
byte-wise comparison used by Rust's `Vec::<String>::sort` orders strings the
same way, since UTF-8 preserves scalar-value order. -/
def clLe : List Char → List Char → Bool
  | [], _ => true
  | _ :: _, [] => false
  | a :: as, b :: bs =>
      if a < b then true
      else if b < a then false
      else clLe as bs

/-- String comparison used when sorting rendered table entries. -/
def strLe (a b : String) : Bool := clLe a.data b.data

/-- Insertion step of the sort over rendered table entries. -/
def insertStr (s : String) : List String → List String
  | [] => [s]
  | t :: ts => if strLe s t then s :: t :: ts else t :: insertStr s ts

/-- Sorting of the rendered table entries; models `sorted_vec.sort()` in
`Value::as_string` (any comparison sort produces the same list: the unique
permutation that is sorted under the total order `strLe`). -/
def sortStrings : List String → List String
  | [] => []
  | s :: ts => insertStr s (sortStrings ts)

/-- ASCII lowering of a string; models `str::to_lowercase` on the ASCII
letters, which is all the case-insensitivity claim concerns. -/
def toLowerStr (s : String) : String := String.mk (s.data.map Char.toLower)

/-! ## Errors -/

/-- Modelled from the spec: the error enum of `error.rs` is not under src/.
Section 7 of the spec lists the kinds: `Frozen`, `ParseError` carrying the
offending substring, `NotFound` carrying the original key text,
`InvalidType` carrying the origin, the actual shape and the expected shape,
and `SourceError` wrapping the source's own diagnostic. -/
inductive ConfigError : Type where
  | frozen
  | parseError (fragment : String)
  | notFound (key : String)
  | invalidType (origin : Option String) (actual : String) (expected : String)
  | sourceError (msg : String)
deriving DecidableEq

/-! ## Path expressions -/

/-- Modelled from the spec: one access step of a parsed path expression,
either a field by name or an index by position (spec section 3). -/
inductive Step : Type where
  | key (name : String)
  | index (i : Nat)
deriving DecidableEq

/-- Modelled from the spec: a parsed, reusable accessor — an ordered
sequence of steps (spec section 3). -/
structure Expression : Type where
  steps : List Step
deriving DecidableEq

/-- Character class that terminates a key run in the path grammar. -/
def special (c : Char) : Bool := c == '.' || c == '[' || c == ']'

/-- Numeric value of a run of decimal digit characters. -/
def digitsVal (l : List Char) : Nat :=
  l.foldl (fun a c => a * 10 + (c.toNat - 48)) 0

/-- Modelled from the spec: the tail of the path parser (`path.rs` is not
under src/).  After an initial key run the remaining text is a chain of
`.key` runs and `[digits]` groups (spec section 4.1); anything else is a
parse error carrying the offending fragment.  The first argument is fuel,
an artefact of the embedding: `from_str` passes the text length, which
always suffices because every iteration consumes at least one character. -/
def parseRest : Nat → List Char → Except ConfigError (List Step)
  | _, [] => .ok []
  | fuel+1, '.' :: cs =>
      let run := cs.takeWhile (fun c => !special c)
      let rest := cs.dropWhile (fun c => !special c)
      if run.isEmpty then .error (.parseError (String.mk ('.' :: cs)))
      else
        match parseRest fuel rest with
        | .ok t => .ok (.key (String.mk run) :: t)
        | .error e => .error e
  | fuel+1, '[' :: cs =>
      let ds := cs.takeWhile Char.isDigit
      let rest := cs.dropWhile Char.isDigit
      match rest with
      | ']' :: rest' =>
          if ds.isEmpty then .error (.parseError (String.mk ('[' :: cs)))
          else
            match parseRest fuel rest' with
            | .ok t => .ok (.index (digitsVal ds) :: t)
            | .error e => .error e
      | _ => .error (.parseError (String.mk ('[' :: cs)))
  | _, cs => .error (.parseError (String.mk cs))

/-- Modelled from the spec: `Expression::from_str` of `path.rs` (not under
src/).  A path starts with a non-empty run of non-special characters and
continues per `parseRest` (spec section 4.1). -/
def from_str (text : String) : Except ConfigError Expression :=
  let cs := text.data
  let run := cs.takeWhile (fun c => !special c)
  let rest := cs.dropWhile (fun c => !special c)
  if run.isEmpty then .error (.parseError text)
  else
    match parseRest cs.length rest with
    | .ok steps => .ok ⟨.key (String.mk run) :: steps⟩
    | .error e => .error e

/-! ## Values (src/value.rs) -/

mutual
/-- The configuration value of `src/value.rs`: a struct of an optional
provenance `origin` and a `ValueKind`; the kind is inlined as one
constructor per variant.  The nested `Vec<Value>` and
`HashMap<String, Value>` are the mutually defined `ValueList` and
`EntryList` (entry order stands for map iteration order). -/
inductive Value : Type where
  | nil (origin : Option String)
  | boolean (origin : Option String) (b : Bool)
  | integer (origin : Option String) (i : Int)
  | float (origin : Option String) (q : Rat)
  | string (origin : Option String) (s : String)
  | table (origin : Option String) (entries : EntryList)
  | array (origin : Option String) (elems : ValueList)
deriving DecidableEq

/-- Model of `Vec<Value>`. -/
inductive ValueList : Type where
  | nil
  | cons (v : Value) (t : ValueList)
deriving DecidableEq

/-- Model of `HashMap<String, Value>` as the list of its entries. -/
inductive EntryList : Type where
  | nil
  | cons (k : String) (v : Value) (t : EntryList)
deriving DecidableEq
end

/-- Provenance tag of a value. -/
def Value.origin : Value → Option String
  | .nil o => o
  | .boolean o _ => o
  | .integer o _ => o
  | .float o _ => o
  | .string o _ => o
  | .table o _ => o
  | .array o _ => o

/-- Short description of a value's variant, used in `InvalidType` errors
(the Rust code carries the `ValueKind` itself; only the error's kind is
relied on by any claim). -/
def Value.kindDesc : Value → String
  | .nil _ => "nil"
  | .boolean _ _ => "a boolean"
  | .integer _ _ => "an integer"
  | .float _ _ => "a floating point"
  | .string _ _ => "a string"
  | .table _ _ => "a map"
  | .array _ _ => "an array"

/-- Scalar (non-table, non-array) test used to phrase flattening facts. -/
def Value.isScalar : Value → Bool
  | .table _ _ => false
  | .array _ _ => false
  | _ => true

/-- Lookup by exact string equality in a table. -/
def tlookup (k : String) : EntryList → Option Value
  | .nil => none
  | .cons k' v t => if k = k' then some v else tlookup k t

/-- Insert into a table: replaces the binding of an existing key in place,
appends a fresh key at the end (HashMap insert semantics). -/
def tInsert (k : String) (v : Value) : EntryList → EntryList
  | .nil => .cons k v .nil
  | .cons k' v' t => if k = k' then .cons k v t else .cons k' v' (tInsert k v t)

/-- Length of an array value's element list. -/
def vlLen : ValueList → Nat
  | .nil => 0
  | .cons _ t => vlLen t + 1

/-- Positional lookup in an array value. -/
def vlGet : ValueList → Nat → Option Value
  | .nil, _ => none
  | .cons v _, 0 => some v
  | .cons _ t, n+1 => vlGet t n

/-- Positional overwrite in an array value (no effect out of bounds). -/
def vlSet : ValueList → Nat → Value → ValueList
  | .nil, _, _ => .nil
  | .cons _ t, 0, v => .cons v t
  | .cons w t, n+1, v => .cons w (vlSet t n v)

/-- A run of `Nil` placeholder values. -/
def vlNils : Nat → ValueList
  | 0 => .nil
  | n+1 => .cons (Value.nil none) (vlNils n)

/-- Extension of an array with `Nil` placeholders to length at least `n`;
existing elements are never reordered or dropped. -/
def vlPad : ValueList → Nat → ValueList
  | .nil, n => vlNils n
  | .cons v t, 0 => .cons v t
  | .cons v t, n+1 => .cons v (vlPad t n)

/-! ## Path traversal (spec section 4.1; `path.rs` is not under src/) -/

/-- Modelled from the spec: read traversal of an expression's steps.  A key
step requires a table and looks up by exact string equality; an index step
requires an array and an in-bounds position; any miss or shape mismatch
yields `none` (spec section 4.1 `get`). -/
def getSteps : List Step → Value → Option Value
  | [], v => some v
  | .key k :: rest, .table _ t =>
      match tlookup k t with
      | some v => getSteps rest v
      | none => none
  | .key _ :: _, _ => none
  | .index i :: rest, .array _ a =>
      match vlGet a i with
      | some v => getSteps rest v
      | none => none
  | .index _ :: _, _ => none

/-- Modelled from the spec: write traversal of an expression's steps (spec
section 4.1 `set`).  Intermediate structure is created on demand: a key step
over a non-table clobbers it with a fresh empty table, an index step over a
non-array clobbers it with a fresh empty array and pads with `Nil` up to the
index; the final step assigns the value in place, replacing whatever was
there.  The traversal never fails. -/
def setSteps : List Step → Value → Value → Value
  | [], _, v => v
  | .key k :: rest, tree, v =>
      let p : Option String × EntryList :=
        match tree with
        | .table o t => (o, t)
        | _ => (none, .nil)
      let child :=
        match tlookup k p.2 with
        | some c => c
        | none => .table none .nil
      .table p.1 (tInsert k (setSteps rest child v) p.2)
  | .index i :: rest, tree, v =>
      let p : Option String × ValueList :=
        match tree with
        | .array o a => (o, a)
        | _ => (none, .nil)
      let padded := vlPad p.2 (i+1)
      let child :=
        match vlGet padded i with
        | some c => c
        | none => .nil none
      .array p.1 (vlSet padded i (setSteps rest child v))

/-- Read access through a parsed expression (spec section 4.1). -/
def Expression.get (e : Expression) (tree : Value) : Option Value :=
  getSteps e.steps tree

/-- Write access through a parsed expression (spec section 4.1). -/
def Expression.set (e : Expression) (tree : Value) (v : Value) : Value :=
  setSteps e.steps tree v

/-! ## Coercions (src/value.rs) -/

/-- Word lists of `Value::into_bool`'s string case. -/
def trueWords : List String := ["1", "true", "on", "yes"]

/-- False-mapped words of `Value::into_bool`'s string case. -/
def falseWords : List String := ["0", "false", "off", "no"]

/-- Coercion `Value::into_bool`: `Boolean` passthrough; `Integer` and
`Float` map to `value != 0`; a string is lower-cased and compared against
the boolean word lists; everything else is an `InvalidType` error. -/
def Value.into_bool : Value → Except ConfigError Bool
  | .boolean _ b => .ok b
  | .integer _ i => .ok (decide (i ≠ 0))
  | .float _ q => .ok (decide (q ≠ 0))
  | .string o s =>
      if (toLowerStr s) ∈ trueWords then .ok true
      else if (toLowerStr s) ∈ falseWords then .ok false
      else .error (.invalidType o "a string" "a boolean")
  | v => .error (.invalidType v.origin v.kindDesc "a boolean")

/-- Lower bound of `i64`. -/
def i64min : Int := -(2 ^ 63)

/-- Upper bound of `i64`. -/
def i64max : Int := 2 ^ 63 - 1

/-- Saturating conversion to the `i64` range, the behaviour of Rust's
`as i64` cast on a finite float. -/
def i64clamp (n : Int) : Int := max i64min (min i64max n)

/-- Rounding to the nearest integer with ties away from zero: the behaviour
of Rust's `f64::round`. -/
def roundHalfAway (q : Rat) : Int :=
  if 0 ≤ q then ⌊q + 1/2⌋ else -⌊-q + 1/2⌋

/-- Base-ten signed integer literal parse, the model of `str::parse::<i64>`:
an optional sign followed by one or more digits, failing outside the `i64`
range. -/
def parseI64 (s : String) : Option Int :=
  let digits : List Char → Option Int := fun ds =>
    if ds = [] then none
    else if ds.all Char.isDigit then
      if (digitsVal ds : Int) ≤ i64max then some (digitsVal ds) else none
    else none
  match s.data with
  | '-' :: ds =>
      match digits ds with
      | some v => if -v ≥ i64min then some (-v) else none
      | none => none
  | '+' :: ds => digits ds
  | ds => digits ds

/-- Coercion `Value::into_int`: `Integer` passthrough; boolean words map to
0/1 before a numeric literal parse for strings; `Boolean` maps to 0/1;
`Float` is rounded half away from zero and saturated to the `i64` range;
everything else is an `InvalidType` error. -/
def Value.into_int : Value → Except ConfigError Int
  | .integer _ i => .ok i
  | .string o s =>
      if (toLowerStr s) ∈ (["true", "on", "yes"] : List String) then .ok 1
      else if (toLowerStr s) ∈ (["false", "off", "no"] : List String) then .ok 0
      else
        match parseI64 s with
        | some n => .ok n
        | none => .error (.invalidType o "a string" "an integer")
  | .boolean _ b => .ok (if b then 1 else 0)
  | .float _ q => .ok (i64clamp (roundHalfAway q))
  | v => .error (.invalidType v.origin v.kindDesc "an integer")

/-! ## Stringification (src/value.rs, `Value::as_string`) -/

mutual
/-- Non-failing display form (`Value::as_string`): `Nil` is the empty
string; scalars render to their literal; a table renders its entries as
"k: v" strings, sorts that list of rendered strings, and joins them inside
braces; an array joins its elements, in order, inside brackets. -/
def Value.as_string : Value → String
  | .nil _ => ""
  | .boolean _ b => if b then "true" else "false"
  | .integer _ i => intStr i
  | .float _ q => ratStr q
  | .string _ s => s
  | .table _ t =>
      "\x7b " ++ String.intercalate ", " (sortStrings (renderEntries t)) ++ " \x7d"
  | .array _ a =>
      "[ " ++ String.intercalate ", " (renderElems a) ++ " ]"
termination_by structural v => v

/-- Rendered "k: v" strings of a table's entries, in entry order (the
`format!` inside the `Table` arm of `as_string`). -/
def renderEntries : EntryList → List String
  | .nil => []
  | .cons k v t => (k ++ ": " ++ Value.as_string v) :: renderEntries t
termination_by structural t => t

/-- Rendered strings of an array's elements, in order. -/
def renderElems : ValueList → List String
  | .nil => []
  | .cons v t => Value.as_string v :: renderElems t
termination_by structural t => t
end

/-! ## Sources and the layered store (src/config.rs) -/

/-- Modelled from the spec: `source.rs` (the `Source` trait) is not under
src/.  Per spec sections 4.3 step 3 and 6, a source either contributes its
full flattened list of (expression, value) pairs or fails with a
source-specific error that the store surfaces verbatim. -/
inductive SourceModel : Type where
  | ok (entries : List (Expression × Value))
  | fail (msg : String)
deriving DecidableEq

/-- Application of a list of (expression, value) pairs through the path
`set` primitive, in list order. -/
def applyAll (entries : List (Expression × Value)) (cache : Value) : Value :=
  entries.foldl (fun c p => p.1.set c p.2) cache

/-- Modelled from the spec: `collect_to` over the ordered source list
(`source.rs` is not under src/).  Sources contribute in insertion order;
the first failure aborts with that source's error (spec section 4.3
step 3). -/
def collect_to : List SourceModel → Value → Except ConfigError Value
  | [], cache => .ok cache
  | .ok es :: rest, cache => collect_to rest (applyAll es cache)
  | .fail msg :: _, _ => .error (.sourceError msg)

/-- The mutable state of a store: the `defaults` and `overrides` layers
(finite maps from expression to value) and the ordered source list
(`ConfigKind::Mutable` in src/config.rs). -/
structure ConfigState : Type where
  defaults : List (Expression × Value)
  overrides : List (Expression × Value)
  sources : List SourceModel
deriving DecidableEq

/-- The store's kind: mutable with its three layers, or terminally frozen
(`ConfigKind` in src/config.rs). -/
inductive ConfigKind : Type where
  | mutableKind (st : ConfigState)
  | frozen
deriving DecidableEq

/-- The store: its kind and the derived cache that all reads observe
(`Config` in src/config.rs). -/
structure Config : Type where
  kind : ConfigKind
  cache : Value
deriving DecidableEq

/-- The empty table value (`HashMap::<String, Value>::new().into()`). -/
def emptyTable : Value := .table none .nil

/-- A fresh store: mutable with empty layers, `Nil` cache
(`Config::default`). -/
def Config.new : Config := ⟨.mutableKind ⟨[], [], []⟩, .nil none⟩

/-- Insert into an expression-keyed layer map: replaces the binding of an
existing expression in place, appends a fresh one (HashMap insert). -/
def mapInsert (k : Expression) (v : Value) : List (Expression × Value) → List (Expression × Value)
  | [] => [(k, v)]
  | (k', v') :: t => if k = k' then (k, v) :: t else (k', v') :: mapInsert k v t

/-- Lookup in an expression-keyed layer map. -/
def mapLookup (k : Expression) : List (Expression × Value) → Option Value
  | [] => none
  | (k', v') :: t => if k = k' then some v' else mapLookup k t

/-- Rebuild of the cache (`Config::refresh`): from an empty table, apply
every default, then every source in insertion order, then every override,
each through the path `set` primitive.  On a source failure the error is
returned and the store — in particular its previously computed cache — is
returned unchanged; the cache is replaced only on total success.  A frozen
store refuses with the `Frozen` error. -/
def Config.refresh (c : Config) : Config × Option ConfigError :=
  match c.kind with
  | .frozen => (c, some .frozen)
  | .mutableKind st =>
      match collect_to st.sources (applyAll st.defaults emptyTable) with
      | .error e => (c, some e)
      | .ok mid => ({ c with cache := applyAll st.overrides mid }, none)

/-- Mutator `Config::merge`: appends the source to the ordered source list,
then refreshes.  A frozen store refuses before touching anything. -/
def Config.merge (c : Config) (src : SourceModel) : Config × Option ConfigError :=
  match c.kind with
  | .frozen => (c, some .frozen)
  | .mutableKind st =>
      Config.refresh { c with kind := .mutableKind { st with sources := st.sources ++ [src] } }

/-- Mutator `Config::set_default`: lower-cases and parses the key — a parse
error is returned before any mutation — inserts into the `defaults` layer,
then refreshes.  A frozen store refuses before touching anything. -/
def Config.set_default (c : Config) (key : String) (v : Value) : Config × Option ConfigError :=
  match c.kind with
  | .frozen => (c, some .frozen)
  | .mutableKind st =>
      match from_str (toLowerStr key) with
      | .error e => (c, some e)
      | .ok expr =>
          Config.refresh { c with kind := .mutableKind { st with defaults := mapInsert expr v st.defaults } }

/-- Mutator `Config::set`: like `set_default` but inserting into the
`overrides` layer. -/
def Config.set (c : Config) (key : String) (v : Value) : Config × Option ConfigError :=
  match c.kind with
  | .frozen => (c, some .frozen)
  | .mutableKind st =>
      match from_str (toLowerStr key) with
      | .error e => (c, some e)
      | .ok expr =>
          Config.refresh { c with kind := .mutableKind { st with overrides := mapInsert expr v st.overrides } }

/-- Read access `Config::get`: lower-cases and parses the key, traverses
the cache, and returns the located value or `NotFound` carrying the
original key text.  (The deserialization into a caller type is outside the
embedding; the located `Value` itself is returned.) -/
def Config.get (c : Config) (key : String) : Except ConfigError Value :=
  match from_str (toLowerStr key) with
  | .error e => .error e
  | .ok expr =>
      match expr.get c.cache with
      | some v => .ok v
      | none => .error (.notFound key)

/-! ## Bulk construction (src/config.rs, `From<HashMap<String, Value>>`) -/

/-- Root prefix used by `build_path`: empty at the root, otherwise the root
path followed by a dot. -/
def rootPrefix (root : String) : String :=
  if root = "" then "" else root ++ "."

/-- The array arm of the flattening loop of `From<HashMap<String, Value>>`:
element `j` (counting from the starting index) is inserted whole at the
path parsed from the text formed of the entry key and the bracketed index;
elements are not descended into.  The result is `none` when a synthesized
path fails to parse, modelling the `unwrap` panic in the Rust code. -/
def arrayEntries (k : String) : ValueList → Nat → List (Expression × Value) → Option (List (Expression × Value))
  | .nil, _, ret => some ret
  | .cons v rest, i, ret =>
      match from_str (k ++ "[" ++ natStr i ++ "]") with
      | .ok e => arrayEntries k rest (i+1) (mapInsert e v ret)
      | .error _ => none

mutual
/-- The flattening loop of `From<HashMap<String, Value>> for Config`
(src/config.rs, `build_path`): each entry of the map is dispatched on its
value's variant by `build_entry`; entries are processed in iteration order.
The result is `none` when a synthesized path fails to parse, modelling the
`unwrap` panic in the Rust code. -/
def build_path (root : String) : EntryList → List (Expression × Value) → Option (List (Expression × Value))
  | .nil, ret => some ret
  | .cons k v rest, ret =>
      match build_entry root k v ret with
      | some ret' => build_path root rest ret'
      | none => none
termination_by structural l => l

/-- One entry of the flattening loop: a nested table recurses with the
extended root path; an array inserts each element whole at the path built
from the entry key alone (the Rust code formats only the local key, not
the root-prefixed path, and does not recurse into elements); any other
value is inserted at its root-prefixed path. -/
def build_entry (root : String) (k : String) : Value → List (Expression × Value) → Option (List (Expression × Value))
  | .table _ t, ret => build_path (rootPrefix root ++ k) t ret
  | .array _ a, ret => arrayEntries k a 0 ret
  | v, ret =>
      match from_str (rootPrefix root ++ k) with
      | .ok e => some (mapInsert e v ret)
      | .error _ => none
termination_by structural v => v
end

/-- Bulk construction `From<HashMap<String, Value>> for Config`: flattens
the map into the `overrides` layer via `build_path` (defaults and sources
empty) and sets the cache to the unflattened original table. -/
def Config.from_map (m : EntryList) : Option Config :=
  match build_path "" m [] with
  | some ret => some ⟨.mutableKind ⟨[], ret, []⟩, .table none m⟩
  | none => none

/-! ## Lemmas: decimal digits -/

/-- Bounded case split used for digit facts. -/
theorem digitChar_spec (d : Nat) (h : d < 10) :
    (digitChar d).isDigit = true ∧ special (digitChar d) = false ∧ (digitChar d).toNat - 48 = d := by
  interval_cases d <;> exact ⟨by decide, by decide, by decide⟩

theorem toDecimalAux_acc (fuel n : Nat) :
    ∀ acc, toDecimalAux fuel n acc = toDecimalAux fuel n [] ++ acc := by
  induction fuel generalizing n with
  | zero => intro acc; simp [toDecimalAux]
  | succ fuel ih =>
      intro acc
      by_cases h : n < 10
      · simp [toDecimalAux, h]
      · simp only [toDecimalAux, if_neg h]
        rw [ih (n / 10) (digitChar (n % 10) :: acc), ih (n / 10) [digitChar (n % 10)]]
        simp

theorem toDecimalAux_fuel (fuel n : Nat) (h : n ≤ fuel) :
    ∀ fuel', n ≤ fuel' → toDecimalAux fuel n [] = toDecimalAux fuel' n [] := by
  induction fuel using Nat.strong_induction_on generalizing n with
  | _ fuel ih =>
      intro fuel' h'
      match fuel, fuel' with
      | 0, 0 => rfl
      | 0, f'+1 =>
          interval_cases n
          simp [toDecimalAux]
      | f+1, 0 =>
          interval_cases n
          simp [toDecimalAux]
      | f+1, f'+1 =>
          by_cases hn : n < 10
          · simp [toDecimalAux, hn]
          · simp only [toDecimalAux, if_neg hn]
            rw [toDecimalAux_acc f, toDecimalAux_acc f']
            have hd : n / 10 < n := Nat.div_lt_self (by omega) (by omega)
            have h1 : n / 10 ≤ f := by omega
            have h2 : n / 10 ≤ f' := by omega
            rw [ih f (by omega) (n / 10) h1 f' h2]

theorem digitsVal_append_last (l : List Char) (c : Char) :
    digitsVal (l ++ [c]) = digitsVal l * 10 + (c.toNat - 48) := by
  simp [digitsVal, List.foldl_append]

theorem toDecimal_spec (n : Nat) :
    digitsVal (toDecimal n) = n ∧ toDecimal n ≠ [] ∧
      ∀ c ∈ toDecimal n, c.isDigit = true ∧ special c = false := by
  induction n using Nat.strong_induction_on with
  | _ n ih =>
      by_cases h : n < 10
      · have hd := digitChar_spec n h
        unfold toDecimal
        match n, h with
        | 0, _ => exact ⟨by decide, by decide, by decide⟩
        | k+1, h =>
            simp only [toDecimalAux, if_pos h]
            refine ⟨?_, by simp, ?_⟩
            · simp [digitsVal]
              omega
            · intro c hc
              simp at hc
              subst hc
              exact ⟨hd.1, hd.2.1⟩
      · have hlt : n / 10 < n := Nat.div_lt_self (by omega) (by omega)
        have ihd := ih (n / 10) hlt
        have hdig := digitChar_spec (n % 10) (Nat.mod_lt n (by omega))
        have step : toDecimal n = toDecimal (n / 10) ++ [digitChar (n % 10)] := by
          show toDecimalAux n n [] = _
          match n, h with
          | m+1, h =>
              simp only [toDecimalAux, if_neg h]
              rw [toDecimalAux_acc m]
              congr 1
              exact toDecimalAux_fuel m ((m+1) / 10) (by omega) ((m+1) / 10) le_rfl
        rw [step]
        refine ⟨?_, by simp, ?_⟩
        · rw [digitsVal_append_last, ihd.1, hdig.2.2]
          omega
        · intro c hc
          rcases List.mem_append.mp hc with hc | hc
          · exact ihd.2.2 c hc
          · simp at hc
            subst hc
            exact ⟨hdig.1, hdig.2.1⟩

/-! ## Lemmas: takeWhile and dropWhile -/

theorem takeWhile_all {p : Char → Bool} {l : List Char} (h : ∀ c ∈ l, p c = true) :
    l.takeWhile p = l ∧ l.dropWhile p = [] := by
  induction l with
  | nil => exact ⟨rfl, rfl⟩
  | cons c t ih =>
      have hc : p c = true := h c (by simp)
      have iht := ih (fun x hx => h x (by simp [hx]))
      simp [List.takeWhile, List.dropWhile, hc, iht.1, iht.2]

theorem takeWhile_boundary {p : Char → Bool} {l r : List Char} {x : Char}
    (h : ∀ c ∈ l, p c = true) (hx : p x = false) :
    (l ++ x :: r).takeWhile p = l ∧ (l ++ x :: r).dropWhile p = x :: r := by
  induction l with
  | nil => simp [List.takeWhile, List.dropWhile, hx]
  | cons c t ih =>
      have hc : p c = true := h c (by simp)
      have iht := ih (fun y hy => h y (by simp [hy]))
      simp [List.takeWhile, List.dropWhile, hc, iht.1, iht.2]

/-! ## Lemmas: the path parser on well-formed keys -/

/-- A key text that is a single bare run: non-empty and free of the three
special characters. -/
def goodKey (k : String) : Prop :=
  k.data ≠ [] ∧ ∀ c ∈ k.data, special c = false

instance (k : String) : Decidable (goodKey k) := by
  unfold goodKey
  infer_instance

theorem String.mk_data (s : String) : String.mk s.data = s := by
  cases s
  rfl

theorem parseRest_nil (f : Nat) : parseRest f [] = .ok [] := by
  cases f <;> rfl

theorem parseRest_dot_good (f : Nat) {k : String} (h : goodKey k) :
    parseRest (f+1) ('.' :: k.data) = .ok [.key k] := by
  obtain ⟨hne, hall⟩ := h
  have hTW := takeWhile_all (p := fun c => !special c)
    (l := k.data) (fun c hc => by simp [hall c hc])
  simp only [parseRest, hTW.1, hTW.2]
  rw [if_neg (by simpa [List.isEmpty_iff] using hne)]

theorem parseRest_index (f : Nat) (i : Nat) :
    parseRest (f+1) ('[' :: (toDecimal i ++ [']'])) = .ok [.index i] := by
  obtain ⟨hval, hde, hdig⟩ := toDecimal_spec i
  have hDB := takeWhile_boundary (p := Char.isDigit)
    (l := toDecimal i) (r := []) (x := ']')
    (fun c hc => (hdig c hc).1) (by decide)
  simp only [parseRest, hDB.1, hDB.2]
  rw [if_neg (by simpa [List.isEmpty_iff] using hde), hval]

theorem from_str_good {k : String} (h : goodKey k) :
    from_str k = .ok ⟨[.key k]⟩ := by
  obtain ⟨hne, hall⟩ := h
  have hTW := takeWhile_all (p := fun c => !special c)
    (l := k.data) (fun c hc => by simp [hall c hc])
  unfold from_str
  simp only [hTW.1, hTW.2, parseRest_nil]
  rw [if_neg (by simpa [List.isEmpty_iff] using hne)]

theorem from_str_good_dot {k₁ k₂ : String} (h₁ : goodKey k₁) (h₂ : goodKey k₂) :
    from_str (k₁ ++ "." ++ k₂) = .ok ⟨[.key k₁, .key k₂]⟩ := by
  have hne₁ := h₁.1
  have hdata : (k₁ ++ "." ++ k₂).data = k₁.data ++ '.' :: k₂.data := by
    simp [String.data_append]
  have hB := takeWhile_boundary (p := fun c => !special c)
    (l := k₁.data) (r := k₂.data) (x := '.')
    (fun c hc => by simp [h₁.2 c hc]) (by decide)
  unfold from_str
  simp only [hdata, hB.1, hB.2]
  rw [show (k₁.data ++ '.' :: k₂.data).length = (k₁.data.length + k₂.data.length) + 1 from by
    simp only [List.length_append, List.length_cons]
    omega]
  rw [parseRest_dot_good _ h₂]
  rw [if_neg (by simpa [List.isEmpty_iff] using hne₁)]

theorem from_str_key_index {k : String} (h : goodKey k) (i : Nat) :
    from_str (k ++ "[" ++ natStr i ++ "]") = .ok ⟨[.key k, .index i]⟩ := by
  have hne := h.1
  have hdata : (k ++ "[" ++ natStr i ++ "]").data
      = k.data ++ '[' :: (toDecimal i ++ [']']) := by
    simp [String.data_append, natStr]
  have hB := takeWhile_boundary (p := fun c => !special c)
    (l := k.data) (r := toDecimal i ++ [']']) (x := '[')
    (fun c hc => by simp [h.2 c hc]) (by decide)
  unfold from_str
  simp only [hdata, hB.1, hB.2]
  rw [show (k.data ++ '[' :: (toDecimal i ++ [']'])).length
      = (k.data.length + (toDecimal i).length + 1) + 1 from by
    simp only [List.length_append, List.length_cons, List.length_nil]
    omega]
  rw [parseRest_index]
  rw [if_neg (by simpa [List.isEmpty_iff] using hne)]

/-! ## Lemmas: tables, arrays and the set/get round trip -/

theorem tlookup_tInsert_self (k : String) (v : Value) :
    ∀ (t : EntryList), tlookup k (tInsert k v t) = some v
  | .nil => by simp [tInsert, tlookup]
  | .cons k' v' t => by
      by_cases h : k = k'
      · simp [tInsert, tlookup, h]
      · simp [tInsert, tlookup, h, tlookup_tInsert_self k v t]

theorem vlLen_vlNils (n : Nat) : vlLen (vlNils n) = n := by
  induction n with
  | zero => rfl
  | succ n ih => simp [vlNils, vlLen, ih]

theorem vlLen_vlPad : ∀ (l : ValueList) (n : Nat), vlLen (vlPad l n) = max (vlLen l) n
  | .nil, n => by simp [vlPad, vlLen, vlLen_vlNils]
  | .cons v t, 0 => by simp [vlPad, vlLen]
  | .cons v t, n+1 => by
      simp [vlPad, vlLen, vlLen_vlPad t n]
      omega

theorem vlGet_vlSet_self :
    ∀ (l : ValueList) (i : Nat) (v : Value), i < vlLen l → vlGet (vlSet l i v) i = some v
  | .nil, i, v, h => by simp [vlLen] at h
  | .cons w t, 0, v, h => rfl
  | .cons w t, i+1, v, h => by
      simp only [vlSet, vlGet]
      exact vlGet_vlSet_self t i v (by simpa [vlLen] using h)

theorem getSteps_setSteps (steps : List Step) (tree v : Value) :
    getSteps steps (setSteps steps tree v) = some v := by
  induction steps generalizing tree with
  | nil => rfl
  | cons s rest ih =>
      cases s with
      | key k =>
          simp only [setSteps, getSteps, tlookup_tInsert_self]
          exact ih _
      | index i =>
          cases tree <;>
            · simp only [setSteps, getSteps]
              rw [vlGet_vlSet_self _ _ _ (by simp only [vlLen_vlPad]; omega)]
              exact ih _

/-! ## Lemmas: refresh and the source list -/

/-- Successful-source test, used to phrase the abort-on-failure fact. -/
def SourceModel.isOk : SourceModel → Bool
  | .ok _ => true
  | .fail _ => false

theorem collect_to_fail_first (msg : String) (rest : List SourceModel) :
    ∀ (good : List SourceModel), (∀ s ∈ good, s.isOk = true) →
    ∀ c, collect_to (good ++ .fail msg :: rest) c = .error (.sourceError msg) := by
  intro good
  induction good with
  | nil => intro _ c; rfl
  | cons s t ih =>
      intro h c
      have hs := h s (by simp)
      cases s with
      | ok es => exact ih (fun x hx => h x (by simp [hx])) (applyAll es c)
      | fail m => simp [SourceModel.isOk] at hs

theorem refresh_fst_kind (c : Config) : (c.refresh).1.kind = c.kind := by
  obtain ⟨kind, cache⟩ := c
  cases kind with
  | frozen => rfl
  | mutableKind st =>
      cases hc : collect_to st.sources (applyAll st.defaults emptyTable) <;>
        simp [Config.refresh, hc]

theorem refresh_fail_fst (c : Config) (e : ConfigError) (h : (c.refresh).2 = some e) :
    (c.refresh).1 = c := by
  obtain ⟨kind, cache⟩ := c
  cases kind with
  | frozen => rfl
  | mutableKind st =>
      cases hc : collect_to st.sources (applyAll st.defaults emptyTable) with
      | error e' => simp [Config.refresh, hc]
      | ok mid => simp [Config.refresh, hc] at h

theorem applyAll_singleton (e : Expression) (v : Value) (c : Value) :
    applyAll [(e, v)] c = e.set c v := by
  simp [applyAll]

/-! ## Lemmas: the string order and the entry sort -/

theorem clLe_total : ∀ a b, clLe a b = true ∨ clLe b a = true
  | [], _ => by left; rfl
  | _ :: _, [] => by right; rfl
  | a :: as, b :: bs => by
      rcases lt_trichotomy a b with h | h | h
      · left; simp [clLe, h]
      · subst h
        rcases clLe_total as bs with h' | h'
        · left; simp [clLe, lt_irrefl, h']
        · right; simp [clLe, lt_irrefl, h']
      · right; simp [clLe, h]

theorem clLe_trans : ∀ a b c, clLe a b = true → clLe b c = true → clLe a c = true
  | [], _, _ => by intro _ _; rfl
  | a :: as, [], c => by intro h _; simp [clLe] at h
  | a :: as, b :: bs, [] => by intro _ h; simp [clLe] at h
  | a :: as, b :: bs, c :: cs => by
      intro h₁ h₂
      rcases lt_trichotomy a b with hab | hab | hab <;>
        rcases lt_trichotomy b c with hbc | hbc | hbc
      · simp [clLe, lt_trans hab hbc]
      · subst hbc; simp [clLe, hab]
      · simp [clLe, not_lt_of_gt hbc, hbc] at h₂
      · subst hab; simp [clLe, hbc]
      · subst hab; subst hbc
        have e : ∀ xs ys : List Char, clLe (a :: xs) (a :: ys) = clLe xs ys := by
          intro xs ys; simp [clLe]
        rw [e] at h₁ h₂ ⊢
        exact clLe_trans as bs cs h₁ h₂
      · simp [clLe, not_lt_of_gt hbc, hbc] at h₂
      · simp [clLe, not_lt_of_gt hab, hab] at h₁
      · simp [clLe, not_lt_of_gt hab, hab] at h₁
      · simp [clLe, not_lt_of_gt hab, hab] at h₁

theorem clLe_antisymm : ∀ a b, clLe a b = true → clLe b a = true → a = b
  | [], [] => by intro _ _; rfl
  | [], _ :: _ => by intro _ h; simp [clLe] at h
  | _ :: _, [] => by intro h _; simp [clLe] at h
  | a :: as, b :: bs => by
      intro h₁ h₂
      rcases lt_trichotomy a b with hab | hab | hab
      · simp [clLe, not_lt_of_gt hab, hab] at h₂
      · subst hab
        simp only [clLe, if_neg (lt_irrefl a)] at h₁ h₂
        rw [clLe_antisymm as bs h₁ h₂]
      · simp [clLe, not_lt_of_gt hab, hab] at h₁

theorem string_ext {s t : String} (h : s.data = t.data) : s = t := by
  cases s; cases t
  exact congrArg String.mk h

theorem strLe_total (a b : String) : strLe a b = true ∨ strLe b a = true :=
  clLe_total a.data b.data

theorem strLe_trans {a b c : String} (h₁ : strLe a b = true) (h₂ : strLe b c = true) :
    strLe a c = true :=
  clLe_trans a.data b.data c.data h₁ h₂

theorem strLe_antisymm {a b : String} (h₁ : strLe a b = true) (h₂ : strLe b a = true) :
    a = b :=
  string_ext (clLe_antisymm a.data b.data h₁ h₂)

theorem insertStr_perm (s : String) (l : List String) :
    (insertStr s l).Perm (s :: l) := by
  induction l with
  | nil => exact List.Perm.refl _
  | cons t ts ih =>
      simp only [insertStr]
      split
      · exact List.Perm.refl _
      · exact (ih.cons t).trans (List.Perm.swap s t ts)

theorem sortStrings_perm (l : List String) : (sortStrings l).Perm l := by
  induction l with
  | nil => exact List.Perm.refl _
  | cons s ts ih =>
      exact (insertStr_perm s (sortStrings ts)).trans (ih.cons s)

theorem mem_insertStr {b s : String} {l : List String} (h : b ∈ insertStr s l) :
    b = s ∨ b ∈ l :=
  by simpa using (insertStr_perm s l).mem_iff.mp h

theorem insertStr_sorted (s : String) (l : List String)
    (h : List.Sorted (fun a b => strLe a b = true) l) :
    List.Sorted (fun a b => strLe a b = true) (insertStr s l) := by
  induction l with
  | nil => simp [insertStr]
  | cons t ts ih =>
      rw [List.sorted_cons] at h
      simp only [insertStr]
      by_cases hst : strLe s t = true
      · rw [if_pos hst, List.sorted_cons]
        refine ⟨?_, List.sorted_cons.mpr h⟩
        intro b hb
        rcases List.mem_cons.mp hb with hb | hb
        · exact hb ▸ hst
        · exact strLe_trans hst (h.1 b hb)
      · rw [if_neg hst, List.sorted_cons]
        refine ⟨?_, ih h.2⟩
        intro b hb
        rcases mem_insertStr hb with hb | hb
        · rcases strLe_total s t with h' | h'
          · exact absurd h' hst
          · rw [hb]; exact h'
        · exact h.1 b hb

theorem sortStrings_sorted (l : List String) :
    List.Sorted (fun a b => strLe a b = true) (sortStrings l) := by
  induction l with
  | nil => simp [sortStrings]
  | cons s ts ih => exact insertStr_sorted s (sortStrings ts) ih

theorem sortStrings_eq_of_perm {l₁ l₂ : List String} (h : l₁.Perm l₂) :
    sortStrings l₁ = sortStrings l₂ := by
  haveI : IsAntisymm String (fun a b => strLe a b = true) :=
    ⟨fun a b hab hba => strLe_antisymm hab hba⟩
  exact List.eq_of_perm_of_sorted
    ((sortStrings_perm l₁).trans (h.trans (sortStrings_perm l₂).symm))
    (sortStrings_sorted l₁) (sortStrings_sorted l₂)

/-! ## Lemmas: rendered entries as mapped lists -/

/-- Entry list of a table value as an ordinary list of pairs. -/
def EntryList.toList : EntryList → List (String × Value)
  | .nil => []
  | .cons k v t => (k, v) :: EntryList.toList t

/-- Element list of an array value as an ordinary list. -/
def ValueList.toList : ValueList → List Value
  | .nil => []
  | .cons v t => v :: ValueList.toList t

theorem renderEntries_eq_map : ∀ t : EntryList,
    renderEntries t = (EntryList.toList t).map (fun p => p.1 ++ ": " ++ p.2.as_string)
  | .nil => rfl
  | .cons k v t => by
      simp [renderEntries, EntryList.toList, renderEntries_eq_map t]

theorem renderElems_eq_map : ∀ a : ValueList,
    renderElems a = (ValueList.toList a).map Value.as_string
  | .nil => rfl
  | .cons v t => by
      simp [renderElems, ValueList.toList, renderElems_eq_map t]

theorem as_string_table_perm (o₁ o₂ : Option String) (t₁ t₂ : EntryList)
    (h : (EntryList.toList t₁).Perm (EntryList.toList t₂)) :
    Value.as_string (.table o₁ t₁) = Value.as_string (.table o₂ t₂) := by
  have hs : sortStrings (renderEntries t₁) = sortStrings (renderEntries t₂) := by
    rw [renderEntries_eq_map, renderEntries_eq_map]
    exact sortStrings_eq_of_perm (h.map _)
  simp [Value.as_string, hs]

/-! ## Lemmas: ASCII case equivalence of keys -/

/-- One character of the other string is the same character, or the same
ASCII letter in the other case. -/
def charCaseEqB (c c' : Char) : Bool :=
  c == c' || (c.isAlpha && c'.isAlpha && (c.toLower == c'.toLower))

/-- Character-wise ASCII-case equivalence of two texts. -/
def caseEqData : List Char → List Char → Bool
  | [], [] => true
  | c :: cs, c' :: cs' => charCaseEqB c c' && caseEqData cs cs'
  | _, _ => false

/-- Two key strings that differ only in ASCII letter case. -/
def eqUpToAsciiCase (s t : String) : Prop := caseEqData s.data t.data = true

instance (s t : String) : Decidable (eqUpToAsciiCase s t) := by
  unfold eqUpToAsciiCase
  infer_instance

theorem caseEqData_toLower : ∀ {l l' : List Char}, caseEqData l l' = true →
    l.map Char.toLower = l'.map Char.toLower
  | [], [], _ => rfl
  | [], _ :: _, h => by simp [caseEqData] at h
  | _ :: _, [], h => by simp [caseEqData] at h
  | c :: cs, c' :: cs', h => by
      simp only [caseEqData, Bool.and_eq_true] at h
      obtain ⟨h1, h2⟩ := h
      simp only [charCaseEqB, Bool.or_eq_true, Bool.and_eq_true, beq_iff_eq] at h1
      have hc : c.toLower = c'.toLower := by
        rcases h1 with h' | h'
        · rw [h']
        · exact h'.2
      simp [hc, caseEqData_toLower h2]

theorem toLowerStr_eq_of_caseEq {s t : String} (h : eqUpToAsciiCase s t) :
    toLowerStr s = toLowerStr t := by
  unfold toLowerStr
  rw [caseEqData_toLower h]

/-! ## Lemmas: rounding of floats -/

theorem roundHalfAway_close (q : Rat) :
    |((roundHalfAway q : Int) : Rat) - q| ≤ 1/2 ∧
      (|((roundHalfAway q : Int) : Rat) - q| = 1/2 → |q| < |((roundHalfAway q : Int) : Rat)|) := by
  by_cases hq : 0 ≤ q
  · simp only [roundHalfAway, if_pos hq]
    have h1 : ((⌊q + 1/2⌋ : Int) : Rat) ≤ q + 1/2 := Int.floor_le _
    have h2 : q + 1/2 < (⌊q + 1/2⌋ : Int) + 1 := Int.lt_floor_add_one _
    constructor
    · rw [abs_le]
      constructor <;> linarith
    · intro heq
      have hdiff : ((⌊q + 1/2⌋ : Int) : Rat) - q = 1/2 := by
        rcases (abs_eq (by norm_num : (0:Rat) ≤ 1/2)).mp heq with h | h
        · exact h
        · linarith
      rw [abs_of_nonneg hq, abs_of_nonneg (by linarith : (0:Rat) ≤ ((⌊q + 1/2⌋ : Int) : Rat))]
      linarith
  · push_neg at hq
    simp only [roundHalfAway, if_neg (not_le.mpr hq)]
    have h1 : ((⌊-q + 1/2⌋ : Int) : Rat) ≤ -q + 1/2 := Int.floor_le _
    have h2 : -q + 1/2 < (⌊-q + 1/2⌋ : Int) + 1 := Int.lt_floor_add_one _
    have hcast : ((-⌊-q + 1/2⌋ : Int) : Rat) = -((⌊-q + 1/2⌋ : Int) : Rat) := by push_cast; ring
    rw [hcast]
    constructor
    · rw [abs_le]
      constructor <;> linarith
    · intro heq
      have hdiff : -((⌊-q + 1/2⌋ : Int) : Rat) - q = -(1/2) := by
        rcases (abs_eq (by norm_num : (0:Rat) ≤ 1/2)).mp heq with h | h
        · linarith
        · linarith
      rw [abs_of_neg hq, abs_of_neg (by linarith : -((⌊-q + 1/2⌋ : Int) : Rat) < 0)]
      linarith

theorem roundHalfAway_in_range {q : Rat}
    (hlo : ((i64min : Int) : Rat) ≤ q) (hhi : q ≤ ((i64max : Int) : Rat)) :
    i64min ≤ roundHalfAway q ∧ roundHalfAway q ≤ i64max := by
  by_cases hq : 0 ≤ q
  · simp only [roundHalfAway, if_pos hq]
    constructor
    · have h0 : (0 : Int) ≤ ⌊q + 1/2⌋ := Int.le_floor.mpr (by push_cast; linarith)
      have hm : i64min ≤ (0 : Int) := by decide
      omega
    · have h1 : ((⌊q + 1/2⌋ : Int) : Rat) ≤ q + 1/2 := Int.floor_le _
      have : ((⌊q + 1/2⌋ : Int) : Rat) < ((i64max : Int) : Rat) + 1 := by linarith
      exact Int.lt_add_one_iff.mp (by exact_mod_cast this)
  · push_neg at hq
    simp only [roundHalfAway, if_neg (not_le.mpr hq)]
    constructor
    · have h1 : ((⌊-q + 1/2⌋ : Int) : Rat) ≤ -q + 1/2 := Int.floor_le _
      have : ((⌊-q + 1/2⌋ : Int) : Rat) < (((-i64min : Int)) : Rat) + 1 := by
        push_cast
        linarith
      have hm : ⌊-q + 1/2⌋ ≤ -i64min := Int.lt_add_one_iff.mp (by exact_mod_cast this)
      omega
    · have hm : 0 ≤ ⌊-q + 1/2⌋ := Int.le_floor.mpr (by push_cast; linarith)
      have : (0 : Int) ≤ i64max := by decide
      omega

theorem i64clamp_id {n : Int} (h1 : i64min ≤ n) (h2 : n ≤ i64max) : i64clamp n = n := by
  simp only [i64clamp]
  omega

/-! ## Lemmas: the flattening of a nested map -/

/-- Expected flattened entries of an array at key text `k`, starting at a
given index: each element whole, keyed by the two-step path. -/
def vlEnum (k : String) : ValueList → Nat → List (Expression × Value)
  | .nil, _ => []
  | .cons v t, i => (⟨[.key k, .index i]⟩, v) :: vlEnum k t (i+1)

theorem mapInsert_fresh {k : Expression} {v : Value} :
    ∀ {m : List (Expression × Value)}, (∀ p ∈ m, p.1 ≠ k) →
      mapInsert k v m = m ++ [(k, v)] := by
  intro m
  induction m with
  | nil => intro _; rfl
  | cons p t ih =>
      intro h
      obtain ⟨k', v'⟩ := p
      have : k ≠ k' := fun he => h (k', v') (by simp) (by simp [he])
      simp [mapInsert, this, ih (fun p hp => h p (by simp [hp]))]

theorem goodKey_ne_empty {k : String} (h : goodKey k) : k ≠ "" := by
  intro he
  exact h.1 (by simp [he])

theorem empty_append_str (k : String) : "" ++ k = k :=
  string_ext (by simp [String.data_append])

theorem arrayEntries_spec {k : String} (hk : goodKey k) :
    ∀ (a : ValueList) (i₀ : Nat) (acc : List (Expression × Value)),
    (∀ p ∈ acc, ∀ j, i₀ ≤ j → Prod.fst p ≠ ⟨[.key k, .index j]⟩) →
    arrayEntries k a i₀ acc = some (acc ++ vlEnum k a i₀)
  | .nil, i₀, acc, _ => by simp [arrayEntries, vlEnum]
  | .cons v t, i₀, acc, h => by
      simp only [arrayEntries, from_str_key_index hk i₀]
      rw [mapInsert_fresh (fun p hp => h p hp i₀ le_rfl)]
      rw [arrayEntries_spec hk t (i₀+1) (acc ++ [(Expression.mk [Step.key k, Step.index i₀], v)]) ?_]
      · simp [vlEnum]
      · intro p hp j hj
        rcases List.mem_append.mp hp with hp | hp
        · exact h p hp j (by omega)
        · simp only [List.mem_singleton] at hp
          subst hp
          intro he
          have : i₀ = j := by simpa using he
          omega

/-! ## Claims -/

/-- Claim C4: on a store in the Frozen state, each mutating operation —
`set`, `merge`, `set_default`, `refresh` — returns the dedicated `Frozen`
error and returns the store byte-for-byte unchanged (so the cache is
untouched and the kind is still Frozen: no operation leaves the Frozen
state), while `get` consults only the cache and therefore behaves on the
frozen store exactly as on any store carrying the same cache. -/
theorem c4_frozen_terminal :
    ∀ (cache : Value) (k : String) (v : Value) (src : SourceModel),
      (Config.mk .frozen cache).refresh = (Config.mk .frozen cache, some .frozen) ∧
      (Config.mk .frozen cache).set k v = (Config.mk .frozen cache, some .frozen) ∧
      (Config.mk .frozen cache).set_default k v = (Config.mk .frozen cache, some .frozen) ∧
      (Config.mk .frozen cache).merge src = (Config.mk .frozen cache, some .frozen) ∧
      ∀ (kd : ConfigKind), (Config.mk kd cache).get k = (Config.mk .frozen cache).get k := by
  intro cache k v src
  exact ⟨rfl, rfl, rfl, rfl, fun kd => rfl⟩

/-- Claim C8: calling `set` or `set_default` on a mutable store with a key
that fails to parse returns the parse error and leaves the store — its
defaults, overrides, sources and cache — exactly as before the call: the
result state is the original store itself and no refresh happens. -/
theorem c8_parse_error_no_mutation :
    ∀ (c : Config) (st : ConfigState) (k : String) (v : Value) (e : ConfigError),
      c.kind = .mutableKind st →
      from_str (toLowerStr k) = .error e →
      c.set k v = (c, some e) ∧ c.set_default k v = (c, some e) := by
  intro c st k v e hk hp
  unfold Config.set Config.set_default
  rw [hk, hp]
  exact ⟨rfl, rfl⟩

/-- Witness for C8 at the concrete store `Config.new` and the malformed key
"a..b", whose parse error carries the offending fragment "..b". -/
theorem c8_witness :
    Config.new.set "a..b" (.nil none) = (Config.new, some (.parseError "..b")) ∧
    Config.new.set_default "a..b" (.nil none) = (Config.new, some (.parseError "..b")) :=
  c8_parse_error_no_mutation Config.new ⟨[], [], []⟩ "a..b" (.nil none)
    (.parseError "..b") rfl (by decide)

/-- Claim C9: refresh is idempotent — if a refresh succeeds and produces a
store, refreshing that store again succeeds and returns it bit-identically
(the second run recomputes the same cache from the unchanged defaults,
sources and overrides). -/
theorem c9_refresh_idempotent :
    ∀ (c c' : Config), c.refresh = (c', none) → c'.refresh = (c', none) := by
  intro c c' h
  obtain ⟨kind, cache⟩ := c
  cases kind with
  | frozen => simp [Config.refresh] at h
  | mutableKind st =>
      cases hc : collect_to st.sources (applyAll st.defaults emptyTable) with
      | error e => simp [Config.refresh, hc] at h
      | ok mid =>
          simp only [Config.refresh, hc] at h
          have hc' : c' = ⟨.mutableKind st, applyAll st.overrides mid⟩ := by
            have := congrArg Prod.fst h
            simpa using this.symm
          subst hc'
          simp [Config.refresh, hc]

/-- Witness for C9: the refresh of the fresh store succeeds, producing the
store with an empty-table cache, and that result satisfies the theorem's
conclusion. -/
theorem c9_witness :
    (Config.mk (.mutableKind ⟨[], [], []⟩) emptyTable).refresh
      = (Config.mk (.mutableKind ⟨[], [], []⟩) emptyTable, none) :=
  c9_refresh_idempotent Config.new (Config.mk (.mutableKind ⟨[], [], []⟩) emptyTable) rfl

/-- Claim C3: whenever a refresh fails — equally when reached through
`merge`, `set` or `set_default` — the failing refresh returns the first
failing source's own error and the store it returns carries the previously
computed cache byte-for-byte (every partially built tree of that refresh is
discarded); in the spec's scenario, after one merged default a failing
`merge` still leaves `get` on the default's key returning the default. -/
theorem c3_source_failure_aborts :
    (∀ (c : Config) (e : ConfigError), (c.refresh).2 = some e → (c.refresh).1 = c) ∧
    (∀ (st : ConfigState) (cache₀ : Value) (good rest : List SourceModel) (msg : String),
      (∀ s ∈ good, s.isOk = true) → st.sources = good ++ .fail msg :: rest →
      (Config.mk (.mutableKind st) cache₀).refresh
        = (Config.mk (.mutableKind st) cache₀, some (.sourceError msg))) ∧
    (∀ (k : String) (d : Value) (msg : String), goodKey k → toLowerStr k = k →
      (Config.new.set_default k d).2 = none ∧
      ((Config.new.set_default k d).1.merge (.fail msg)).2 = some (.sourceError msg) ∧
      ((Config.new.set_default k d).1.merge (.fail msg)).1.cache
        = (Config.new.set_default k d).1.cache ∧
      ((Config.new.set_default k d).1.merge (.fail msg)).1.get k = .ok d) := by
  refine ⟨refresh_fail_fst, ?_, ?_⟩
  · intro st cache₀ good rest msg hgood hsrc
    have hfail := collect_to_fail_first msg rest good hgood
      (applyAll st.defaults emptyTable)
    simp [Config.refresh, hsrc, hfail]
  · intro k d msg hk hlow
    have hparse : from_str (toLowerStr k) = .ok ⟨[.key k]⟩ := by
      rw [hlow]; exact from_str_good hk
    have hsd : Config.new.set_default k d
        = (Config.mk (.mutableKind ⟨[(⟨[.key k]⟩, d)], [], []⟩)
            (setSteps [.key k] emptyTable d), none) := by
      unfold Config.set_default
      rw [show Config.new.kind = .mutableKind ⟨[], [], []⟩ from rfl, hparse]
      simp [Config.refresh, collect_to, applyAll, Expression.set, mapInsert]
    rw [hsd]
    refine ⟨rfl, ?_, ?_, ?_⟩
    · simp [Config.merge, Config.refresh, collect_to, applyAll]
    · simp [Config.merge, Config.refresh, collect_to, applyAll]
    · simp only [Config.merge, Config.refresh, collect_to, applyAll]
      unfold Config.get
      rw [hparse]
      simp [Expression.get, getSteps_setSteps]

/-- Witness for C3 at concrete inputs: the scenario store with key "debug"
and a failing source named "io error". -/
theorem c3_witness :
    (Config.new.set_default "debug" (.boolean none true)).2 = none ∧
    ((Config.new.set_default "debug" (.boolean none true)).1.merge (.fail "io error")).2
      = some (.sourceError "io error") ∧
    ((Config.new.set_default "debug" (.boolean none true)).1.merge (.fail "io error")).1.cache
      = (Config.new.set_default "debug" (.boolean none true)).1.cache ∧
    ((Config.new.set_default "debug" (.boolean none true)).1.merge (.fail "io error")).1.get "debug"
      = .ok (.boolean none true) :=
  c3_source_failure_aborts.2.2 "debug" (.boolean none true) "io error" (by decide) (by decide)

/-- Claim C10: mutators update the layer state before refreshing and a
failed refresh does not roll that update back — `set` (resp. `set_default`)
with a parseable key leaves the new (expression, value) binding inserted in
the overrides (resp. defaults) even when the implicit refresh fails, and
`merge` leaves the appended source in the source list; on any such failure
the cache keeps its previous value, and once a failing source has been
merged onto a store whose other sources all succeed, every subsequent
refresh fails with that source's error. -/
theorem c10_layer_update_survives :
    ∀ (c : Config) (st : ConfigState) (k : String) (v : Value) (expr : Expression)
      (src : SourceModel),
      c.kind = .mutableKind st →
      (from_str (toLowerStr k) = .ok expr →
        ((c.set k v).1.kind
            = .mutableKind { st with overrides := mapInsert expr v st.overrides } ∧
         (∀ e, (c.set k v).2 = some e → (c.set k v).1.cache = c.cache) ∧
         (c.set_default k v).1.kind
            = .mutableKind { st with defaults := mapInsert expr v st.defaults } ∧
         (∀ e, (c.set_default k v).2 = some e → (c.set_default k v).1.cache = c.cache))) ∧
      ((c.merge src).1.kind = .mutableKind { st with sources := st.sources ++ [src] } ∧
       (∀ e, (c.merge src).2 = some e → (c.merge src).1.cache = c.cache)) ∧
      (∀ msg, (∀ s ∈ st.sources, s.isOk = true) →
        (c.merge (.fail msg)).2 = some (.sourceError msg) ∧
        ((c.merge (.fail msg)).1).refresh
          = ((c.merge (.fail msg)).1, some (.sourceError msg))) := by
  intro c st k v expr src hk
  have hset : ∀ (st' : ConfigState),
      ((Config.mk (.mutableKind st') c.cache).refresh).1.kind = .mutableKind st' :=
    fun st' => refresh_fst_kind (Config.mk (.mutableKind st') c.cache)
  refine ⟨?_, ⟨?_, ?_⟩, ?_⟩
  · intro hp
    unfold Config.set Config.set_default
    rw [hk, hp]
    refine ⟨hset _, ?_, hset _, ?_⟩
    · intro e he
      have := refresh_fail_fst (Config.mk (.mutableKind
        { st with overrides := mapInsert expr v st.overrides }) c.cache) e he
      rw [this]
    · intro e he
      have := refresh_fail_fst (Config.mk (.mutableKind
        { st with defaults := mapInsert expr v st.defaults }) c.cache) e he
      rw [this]
  · unfold Config.merge
    rw [hk]
    exact hset _
  · unfold Config.merge
    rw [hk]
    intro e he
    have := refresh_fail_fst (Config.mk (.mutableKind
      { st with sources := st.sources ++ [src] }) c.cache) e he
    rw [this]
  · intro msg hok
    unfold Config.merge
    rw [hk]
    have hfail := collect_to_fail_first msg [] st.sources hok
      (applyAll st.defaults emptyTable)
    constructor
    · simp [Config.refresh, hfail]
    · simp [Config.refresh, hfail]

/-- Witness for C10 at concrete inputs: the fresh store, key "a", a boolean
value and a failing source. -/
theorem c10_witness :
    ((Config.new.set "a" (.boolean none true)).1.kind
        = .mutableKind { defaults := [], overrides := [(⟨[.key "a"]⟩, .boolean none true)], sources := [] }) ∧
    (Config.new.merge (.fail "boom")).2 = some (.sourceError "boom") := by
  have h := c10_layer_update_survives Config.new ⟨[], [], []⟩ "a" (.boolean none true)
    ⟨[.key "a"]⟩ (.fail "boom") rfl
  exact ⟨((h.1 (by decide)).1), (h.2.2 "boom" (by simp)).1⟩

/-- Claim C2: refresh rebuilds the cache from an empty table by applying,
through the path-expression `set` primitive, first the defaults, then each
source's contribution in insertion order, then the overrides (first
conjunct: on any mutable store whose sources succeed, the new cache is the
overrides applied over the sources' result applied over the defaults);
consequently at a key carrying a default `d`, one source contribution `sv`
and an override `o`, `get` returns `o`; with no override it returns the
source value (the later source winning when two sources contribute); with
neither it returns `d`. -/
theorem c2_refresh_order_precedence :
    (∀ (st : ConfigState) (cache₀ mid : Value),
       collect_to st.sources (applyAll st.defaults emptyTable) = .ok mid →
       (Config.mk (.mutableKind st) cache₀).refresh
         = (Config.mk (.mutableKind st) (applyAll st.overrides mid), none)) ∧
    (∀ (k : String) (d sv sv₂ o cache₀ : Value), goodKey k → toLowerStr k = k →
      ((Config.mk (.mutableKind ⟨[(⟨[.key k]⟩, d)], [(⟨[.key k]⟩, o)],
          [.ok [(⟨[.key k]⟩, sv)]]⟩) cache₀).refresh.1.get k = .ok o) ∧
      ((Config.mk (.mutableKind ⟨[(⟨[.key k]⟩, d)], [],
          [.ok [(⟨[.key k]⟩, sv)]]⟩) cache₀).refresh.1.get k = .ok sv) ∧
      ((Config.mk (.mutableKind ⟨[(⟨[.key k]⟩, d)], [], []⟩) cache₀).refresh.1.get k
          = .ok d) ∧
      ((Config.mk (.mutableKind ⟨[(⟨[.key k]⟩, d)], [],
          [.ok [(⟨[.key k]⟩, sv)], .ok [(⟨[.key k]⟩, sv₂)]]⟩) cache₀).refresh.1.get k
          = .ok sv₂)) := by
  constructor
  · intro st cache₀ mid hmid
    simp [Config.refresh, hmid]
  · intro k d sv sv₂ o cache₀ hk hlow
    have hparse : from_str (toLowerStr k) = .ok ⟨[.key k]⟩ := by
      rw [hlow]; exact from_str_good hk
    refine ⟨?_, ?_, ?_, ?_⟩ <;>
      · simp only [Config.refresh, collect_to, applyAll, List.foldl_cons, List.foldl_nil,
          Expression.set]
        unfold Config.get
        rw [hparse]
        simp [Expression.get, getSteps_setSteps]

/-- Witness for C2 at the concrete key "k" with distinct scalar values for
the three layers and a second source. -/
theorem c2_witness :
    (Config.mk (.mutableKind ⟨[(⟨[.key "k"]⟩, .integer none 1)],
        [(⟨[.key "k"]⟩, .integer none 3)],
        [.ok [(⟨[.key "k"]⟩, .integer none 2)]]⟩) (.nil none)).refresh.1.get "k"
      = .ok (.integer none 3) :=
  (c2_refresh_order_precedence.2 "k" (.integer none 1) (.integer none 2)
    (.integer none 4) (.integer none 3) (.nil none) (by decide) (by decide)).1

/-- Claim C7: set / set_default and get all lower-case the raw key before
parsing, so keys differing only in ASCII letter case are interchangeable:
two case-equivalent keys lower to the same text, `set`/`set_default` behave
identically on them on any store, `get` succeeds with the same value on
both, and on a fresh store setting a parseable key and reading it back
through any case-variant returns the value just set (in particular
set "Place.Favorite" then get "place.favorite" returns the value). -/
theorem c7_case_insensitive_lookups :
    (∀ (s t : String), eqUpToAsciiCase s t → toLowerStr s = toLowerStr t) ∧
    (∀ (c : Config) (k k' : String) (v : Value), eqUpToAsciiCase k k' →
       c.set k v = c.set k' v ∧ c.set_default k v = c.set_default k' v) ∧
    (∀ (c : Config) (k k' : String) (r : Value), eqUpToAsciiCase k k' →
       (c.get k = .ok r ↔ c.get k' = .ok r)) ∧
    (∀ (k k' : String) (v : Value) (e : Expression), eqUpToAsciiCase k k' →
       from_str (toLowerStr k) = .ok e →
       (Config.new.set k v).2 = none ∧ (Config.new.set k v).1.get k' = .ok v) := by
  refine ⟨fun s t h => toLowerStr_eq_of_caseEq h, ?_, ?_, ?_⟩
  · intro c k k' v h
    have hl := toLowerStr_eq_of_caseEq h
    unfold Config.set Config.set_default
    rw [hl]
    exact ⟨rfl, rfl⟩
  · intro c k k' r h
    have hl := toLowerStr_eq_of_caseEq h
    unfold Config.get
    rw [hl]
    cases from_str (toLowerStr k') with
    | error e => simp
    | ok e =>
        cases hg : Expression.get e c.cache with
        | none => simp [hg]
        | some v => simp [hg]
  · intro k k' v e h hp
    have hl := toLowerStr_eq_of_caseEq h
    have hset : Config.new.set k v
        = (Config.mk (.mutableKind ⟨[], [(e, v)], []⟩)
            (setSteps e.steps emptyTable v), none) := by
      unfold Config.set
      rw [show Config.new.kind = .mutableKind ⟨[], [], []⟩ from rfl, hp]
      simp [Config.refresh, collect_to, applyAll, Expression.set, mapInsert]
    rw [hset]
    refine ⟨rfl, ?_⟩
    unfold Config.get
    rw [← hl, hp]
    simp [Expression.get, getSteps_setSteps]

/-- Witness for C7: the spec's example, set "Place.Favorite" to true and
read "place.favorite" back. -/
theorem c7_witness :
    (Config.new.set "Place.Favorite" (.boolean none true)).2 = none ∧
    (Config.new.set "Place.Favorite" (.boolean none true)).1.get "place.favorite"
      = .ok (.boolean none true) :=
  c7_case_insensitive_lookups.2.2.2 "Place.Favorite" "place.favorite"
    (.boolean none true) ⟨[.key "place", .key "favorite"]⟩ (by decide) (by decide)

/-- Claim C5: `into_bool` passes a Boolean through unchanged, maps an
Integer to false exactly when it is zero and a Float to false exactly when
it is zero, maps a string that lower-cases to one of "1"/"true"/"on"/"yes"
to true and to one of "0"/"false"/"off"/"no" to false, and returns an
`InvalidType` error on every other string and on every non-scalar-coercible
variant (Nil, Table, Array); `into_int` maps an in-range Float to the
integer within half a unit of it, resolving exact ties away from zero — in
particular 2.6 yields 3. -/
theorem c5_coercion_matrix :
    (∀ (o : Option String) (b : Bool), Value.into_bool (.boolean o b) = .ok b) ∧
    (∀ (o : Option String) (i : Int), Value.into_bool (.integer o i) = .ok (decide (i ≠ 0))) ∧
    (∀ (o : Option String) (q : Rat), Value.into_bool (.float o q) = .ok (decide (q ≠ 0))) ∧
    (∀ (o : Option String) (s : String), toLowerStr s ∈ trueWords →
       Value.into_bool (.string o s) = .ok true) ∧
    (∀ (o : Option String) (s : String), toLowerStr s ∈ falseWords →
       Value.into_bool (.string o s) = .ok false) ∧
    (∀ (o : Option String) (s : String), toLowerStr s ∉ trueWords →
       toLowerStr s ∉ falseWords →
       ∃ a e, Value.into_bool (.string o s) = .error (.invalidType o a e)) ∧
    (∀ (o : Option String), ∃ a e, Value.into_bool (.nil o) = .error (.invalidType o a e)) ∧
    (∀ (o : Option String) (t : EntryList),
       ∃ a e, Value.into_bool (.table o t) = .error (.invalidType o a e)) ∧
    (∀ (o : Option String) (l : ValueList),
       ∃ a e, Value.into_bool (.array o l) = .error (.invalidType o a e)) ∧
    (∀ (o : Option String) (q : Rat),
       ((i64min : Int) : Rat) ≤ q → q ≤ ((i64max : Int) : Rat) →
       ∃ n : Int, Value.into_int (.float o q) = .ok n ∧
         |((n : Int) : Rat) - q| ≤ 1/2 ∧
         (|((n : Int) : Rat) - q| = 1/2 → |q| < |((n : Int) : Rat)|)) ∧
    (Value.into_int (.float none (13/5)) = .ok 3) := by
  refine ⟨fun o b => rfl, fun o i => rfl, fun o q => rfl, ?_, ?_, ?_,
    fun o => ⟨_, _, rfl⟩, fun o t => ⟨_, _, rfl⟩, fun o l => ⟨_, _, rfl⟩, ?_, ?_⟩
  · intro o s hs
    simp [Value.into_bool, hs]
  · intro o s hs
    have ht : toLowerStr s ∉ trueWords := by
      intro ht
      simp only [trueWords, falseWords, List.mem_cons, List.mem_singleton,
        List.not_mem_nil, or_false] at hs ht
      rcases hs with h | h | h | h <;> rcases ht with g | g | g | g <;>
        rw [h] at g <;> exact absurd g (by decide)
    simp [Value.into_bool, ht, hs]
  · intro o s ht hf
    exact ⟨"a string", "a boolean", by simp [Value.into_bool, ht, hf]⟩
  · intro o q hlo hhi
    refine ⟨roundHalfAway q, ?_, (roundHalfAway_close q).1, (roundHalfAway_close q).2⟩
    have hr := roundHalfAway_in_range hlo hhi
    simp [Value.into_int, i64clamp_id hr.1 hr.2]
  · have h3 : roundHalfAway (13/5 : Rat) = 3 := by
      simp only [roundHalfAway, if_pos (by norm_num : (0:Rat) ≤ (13/5 : Rat))]
      norm_num
    simp only [Value.into_int, h3]
    rw [i64clamp_id (by decide) (by decide)]

/-- Witness for C5 at the concrete coercion-matrix inputs: strings "YES",
"NO" and "maybe", and the float thirteen fifths. -/
theorem c5_witness :
    Value.into_bool (.string none "YES") = .ok true ∧
    Value.into_bool (.string none "NO") = .ok false ∧
    (∃ a e, Value.into_bool (.string none "maybe") = .error (.invalidType none a e)) ∧
    (∃ n : Int, Value.into_int (.float none (13/5)) = .ok n ∧
       |((n : Int) : Rat) - 13/5| ≤ 1/2 ∧
       (|((n : Int) : Rat) - 13/5| = 1/2 → |(13/5 : Rat)| < |((n : Int) : Rat)|)) := by
  refine ⟨c5_coercion_matrix.2.2.2.1 none "YES" (by decide),
    c5_coercion_matrix.2.2.2.2.1 none "NO" (by decide),
    c5_coercion_matrix.2.2.2.2.2.1 none "maybe" (by decide) (by decide),
    c5_coercion_matrix.2.2.2.2.2.2.2.2.2.1 none (13/5) ?_ ?_⟩
  · rw [show ((i64min : Int) : Rat) = -(2^63 : Rat) by norm_num [i64min]]
    norm_num
  · rw [show ((i64max : Int) : Rat) = (2^63 : Rat) - 1 by norm_num [i64max]]
    norm_num

/-! ## Claim C6: stringification -/

/-- Definition following the claim's words, for comparison with the code:
insertion of a table entry into a key-sorted entry list (ordering
lexicographically by the KEY alone, as the claim asserts). -/
def insertPairByKey (p : String × Value) : List (String × Value) → List (String × Value)
  | [] => [p]
  | q :: qs => if strLe p.1 q.1 then p :: q :: qs else q :: insertPairByKey p qs

/-- Definition following the claim's words: table entries sorted
lexicographically by key. -/
def sortPairsByKey : List (String × Value) → List (String × Value)
  | [] => []
  | p :: ps => insertPairByKey p (sortPairsByKey ps)

/-- Definition following the claim's words: the table rendering the claim
describes — entries sorted lexicographically by key, then rendered and
joined inside braces. -/
def tableStrByKey (t : EntryList) : String :=
  "\x7b " ++ String.intercalate ", "
    ((sortPairsByKey (EntryList.toList t)).map (fun p => p.1 ++ ": " ++ p.2.as_string))
    ++ " \x7d"

/-- Counterexample to C6 as stated: on the table with keys "a" and "a1"
(values 1 and 2), the code sorts the rendered entry strings — and since
the colon of "a: 1" sorts after the digit of "a1: 2", the output is
"\x7b a1: 2, a: 1 \x7d", not the key-sorted "\x7b a: 1, a1: 2 \x7d" the
claim predicts. -/
theorem c6_counterexample :
    Value.as_string (.table none (.cons "a" (.integer none 1)
        (.cons "a1" (.integer none 2) .nil)))
      = "\x7b a1: 2, a: 1 \x7d" ∧
    tableStrByKey (.cons "a" (.integer none 1) (.cons "a1" (.integer none 2) .nil))
      = "\x7b a: 1, a1: 2 \x7d" ∧
    Value.as_string (.table none (.cons "a" (.integer none 1)
        (.cons "a1" (.integer none 2) .nil)))
      ≠ tableStrByKey (.cons "a" (.integer none 1) (.cons "a1" (.integer none 2) .nil)) := by
  refine ⟨?_, by decide, ?_⟩
  · simp only [Value.as_string, renderEntries]
    decide
  · simp only [Value.as_string, renderEntries]
    decide

/-- Claim C6 as amended: `as_string` is total and deterministic; `Nil`
renders to the empty string, scalars to their literal, an array to
"[ v, v ]" with its elements rendered in original order, and a table to
"\x7b k: v, k: v \x7d" with its entries sorted lexicographically by the
full rendered entry string "k: v" (not by key alone — the two orders agree
except when a key extended by a character that sorts before the colon is a
prefix-mate of another key); the rendered entry list is sorted under the
byte order and tables whose entry lists are permutations of one another —
structurally equal maps iterated in different insertion orders — render to
the identical string. -/
theorem c6_as_string_amended :
    (∀ o : Option String, Value.as_string (.nil o) = "") ∧
    (∀ o : Option String,
       Value.as_string (.boolean o true) = "true" ∧
       Value.as_string (.boolean o false) = "false") ∧
    (∀ (o : Option String) (i : Int), Value.as_string (.integer o i) = intStr i) ∧
    (∀ (o : Option String) (s : String), Value.as_string (.string o s) = s) ∧
    (∀ (o : Option String) (a : ValueList),
       Value.as_string (.array o a)
         = "[ " ++ String.intercalate ", " ((ValueList.toList a).map Value.as_string)
           ++ " ]") ∧
    (∀ (o : Option String) (t : EntryList),
       Value.as_string (.table o t)
         = "\x7b " ++ String.intercalate ", "
             (sortStrings ((EntryList.toList t).map
               (fun p => p.1 ++ ": " ++ p.2.as_string))) ++ " \x7d" ∧
       List.Sorted (fun a b => strLe a b = true)
         (sortStrings ((EntryList.toList t).map
           (fun p => p.1 ++ ": " ++ p.2.as_string)))) ∧
    (∀ (o₁ o₂ : Option String) (t₁ t₂ : EntryList),
       (EntryList.toList t₁).Perm (EntryList.toList t₂) →
       Value.as_string (.table o₁ t₁) = Value.as_string (.table o₂ t₂)) := by
  refine ⟨fun o => rfl, fun o => ⟨rfl, rfl⟩, fun o i => rfl, fun o s => rfl, ?_, ?_, ?_⟩
  · intro o a
    simp [Value.as_string, renderElems_eq_map]
  · intro o t
    exact ⟨by simp [Value.as_string, renderEntries_eq_map], sortStrings_sorted _⟩
  · intro o₁ o₂ t₁ t₂ h
    exact as_string_table_perm o₁ o₂ t₁ t₂ h

/-- Witness for C6 at two concrete two-entry tables built in opposite
insertion orders: they render to the identical string. -/
theorem c6_witness :
    Value.as_string (.table none (.cons "x" (.integer none 1)
        (.cons "y" (.integer none 2) .nil)))
      = Value.as_string (.table (some "file") (.cons "y" (.integer none 2)
        (.cons "x" (.integer none 1) .nil))) :=
  c6_as_string_amended.2.2.2.2.2.2 none (some "file")
    (.cons "x" (.integer none 1) (.cons "y" (.integer none 2) .nil))
    (.cons "y" (.integer none 2) (.cons "x" (.integer none 1) .nil))
    (by decide)

/-! ## Claim C1: bulk construction from a nested map -/

theorem rootPrefix_empty : rootPrefix "" = "" := by
  simp [rootPrefix]

theorem rootPrefix_ne {k : String} (h : k ≠ "") : rootPrefix k = k ++ "." := by
  simp [rootPrefix, h]

/-- Counterexample to C1 as stated: flattening the map with the single
entry "a" mapped to the table with the single entry "b" mapped to the
one-element array [1] produces the override entry at path "b[0]" — the
root prefix "a." is dropped by the array arm — and no entry at the
claimed fully-qualified path "a.b[0]". -/
theorem c1_counterexample :
    Config.from_map (.cons "a" (.table none (.cons "b"
        (.array none (.cons (.integer none 1) .nil)) .nil)) .nil)
      = some ⟨.mutableKind ⟨[], [(⟨[.key "b", .index 0]⟩, .integer none 1)], []⟩,
          .table none (.cons "a" (.table none (.cons "b"
            (.array none (.cons (.integer none 1) .nil)) .nil)) .nil)⟩ ∧
    mapLookup ⟨[.key "a", .key "b", .index 0]⟩
        [(⟨[.key "b", .index 0]⟩, (.integer none 1 : Value))] = none ∧
    mapLookup ⟨[.key "b", .index 0]⟩
        [(⟨[.key "b", .index 0]⟩, (.integer none 1 : Value))]
      = some (.integer none 1) := by
  refine ⟨by decide, by decide, by decide⟩

/-- Claim C1 as amended: building a store from a nested map sets the cache
to the unflattened original table, leaves defaults and sources empty, and
flattens into the overrides layer as the code's loop actually does — a
scalar at key k lands at path "k"; a scalar inside a nested table at keys
k₁.k₂ lands at the fully-qualified dotted path; an array at key k
contributes each element WHOLE (elements, even nested tables, are not
descended into) at the paths "k[0]", "k[1]", …; and an array inside a
nested table contributes its entries at paths built from the local key
alone, the parent prefix being dropped. -/
theorem c1_flattening_amended :
    (∀ (m : EntryList) (cfg : Config), Config.from_map m = some cfg →
       cfg.cache = .table none m ∧
       ∃ ov, cfg.kind = .mutableKind ⟨[], ov, []⟩ ∧ build_path "" m [] = some ov) ∧
    (∀ (k : String) (v : Value), goodKey k → v.isScalar = true →
       Config.from_map (.cons k v .nil)
         = some ⟨.mutableKind ⟨[], [(⟨[.key k]⟩, v)], []⟩,
             .table none (.cons k v .nil)⟩) ∧
    (∀ (k₁ k₂ : String) (o : Option String) (v : Value),
       goodKey k₁ → goodKey k₂ → v.isScalar = true →
       Config.from_map (.cons k₁ (.table o (.cons k₂ v .nil)) .nil)
         = some ⟨.mutableKind ⟨[], [(⟨[.key k₁, .key k₂]⟩, v)], []⟩,
             .table none (.cons k₁ (.table o (.cons k₂ v .nil)) .nil)⟩) ∧
    (∀ (k : String) (o : Option String) (a : ValueList), goodKey k →
       Config.from_map (.cons k (.array o a) .nil)
         = some ⟨.mutableKind ⟨[], vlEnum k a 0, []⟩,
             .table none (.cons k (.array o a) .nil)⟩) ∧
    (∀ (k₁ k₂ : String) (o₁ o₂ : Option String) (a : ValueList),
       goodKey k₁ → goodKey k₂ →
       Config.from_map (.cons k₁ (.table o₁ (.cons k₂ (.array o₂ a) .nil)) .nil)
         = some ⟨.mutableKind ⟨[], vlEnum k₂ a 0, []⟩,
             .table none (.cons k₁ (.table o₁ (.cons k₂ (.array o₂ a) .nil)) .nil)⟩) := by
  have hPre : ∀ k : String, rootPrefix "" ++ k = k := fun k => by
    rw [rootPrefix_empty, empty_append_str]
  refine ⟨?_, ?_, ?_, ?_, ?_⟩
  · intro m cfg h
    unfold Config.from_map at h
    cases hb : build_path "" m [] with
    | none => rw [hb] at h; exact absurd h (by simp)
    | some ov =>
        rw [hb] at h
        simp only [Option.some.injEq] at h
        subst h
        exact ⟨rfl, ov, rfl, rfl⟩
  · intro k v hk hv
    cases v <;> simp [Value.isScalar] at hv <;>
      simp [Config.from_map, build_path, build_entry, hPre k, from_str_good hk, mapInsert]
  · intro k₁ k₂ o v hk₁ hk₂ hv
    have hr2 : rootPrefix k₁ ++ k₂ = k₁ ++ "." ++ k₂ := by
      rw [rootPrefix_ne (goodKey_ne_empty hk₁)]
    cases v <;> simp [Value.isScalar] at hv <;>
      simp [Config.from_map, build_path, build_entry, hPre k₁, hr2,
        from_str_good_dot hk₁ hk₂, mapInsert]
  · intro k o a hk
    have ha := arrayEntries_spec hk a 0 [] (by simp)
    simp [Config.from_map, build_path, build_entry, ha]
  · intro k₁ k₂ o₁ o₂ a hk₁ hk₂
    have ha := arrayEntries_spec hk₂ a 0 [] (by simp)
    simp [Config.from_map, build_path, build_entry, hPre k₁, ha]

/-- Witness for C1 at concrete inputs: the nested-array shape at keys "a"
and "b" with the one-element array [1]. -/
theorem c1_witness :
    Config.from_map (.cons "a" (.table none (.cons "b"
        (.array none (.cons (.integer none 1) .nil)) .nil)) .nil)
      = some ⟨.mutableKind ⟨[], vlEnum "b" (.cons (.integer none 1) .nil) 0, []⟩,
          .table none (.cons "a" (.table none (.cons "b"
            (.array none (.cons (.integer none 1) .nil)) .nil)) .nil)⟩ :=
  c1_flattening_amended.2.2.2.2 "a" "b" none none (.cons (.integer none 1) .nil)
    (by decide) (by decide)

end ConfigRust
